import Mathlib

/-!
Verification development for the MuSig2 ceremony orchestration of the `nak`
repository (`musig2.go`) and its MCP server (`mcp.go`).

The embedding follows the Go source line by line.  Bytes are modelled as
natural numbers below 256 (`Bytes := List Nat`).  The cryptographic
primitives library (btcec / musig2), which the specification declares a
trusted black box, is abstracted as a `Crypto` structure of parameters;
the session bookkeeping (nonce counting, partial-signature counting) is
modelled concretely after the musig2 library's documented behaviour, since
`performMusig`'s control flow depends on it.
-/

namespace Nak

/-- Byte strings are lists of naturals (each below 256 where it matters). -/
abbrev Bytes := List Nat

/-- Value of one hex digit character, case-insensitive, as in Go's
`encoding/hex`. -/
def hexDigitVal (c : Char) : Option Nat :=
  if '0' ≤ c ∧ c ≤ '9' then some (c.toNat - '0'.toNat)
  else if 'a' ≤ c ∧ c ≤ 'f' then some (c.toNat - 'a'.toNat + 10)
  else if 'A' ≤ c ∧ c ≤ 'F' then some (c.toNat - 'A'.toNat + 10)
  else none

/-- Hex decoding of a character list: pairs of digits, failing on an odd
length or a non-digit, as in Go's `hex.DecodeString` (whose partial output
on error the caller always discards). -/
def hexDecodeChars : List Char → Option Bytes
  | [] => some []
  | [_] => none
  | c1 :: c2 :: rest =>
    match hexDigitVal c1, hexDigitVal c2, hexDecodeChars rest with
    | some hi, some lo, some r => some ((16 * hi + lo) :: r)
    | _, _, _ => none

/-- Go `hex.DecodeString`. -/
def hexDecode (s : String) : Option Bytes := hexDecodeChars s.data

/-- Lowercase hex digit character for a value below 16, as Go's
`hex.EncodeToString` emits. -/
def hexDigitChar (n : Nat) : Char :=
  if n < 10 then Char.ofNat ('0'.toNat + n) else Char.ofNat ('a'.toNat + n - 10)

/-- Two lowercase hex digits of one byte. -/
def hexEncodeByte (b : Nat) : List Char :=
  [hexDigitChar (b / 16 % 16), hexDigitChar (b % 16)]

/-- Go `hex.EncodeToString`: canonical lowercase hex. -/
def hexEncode (bs : Bytes) : String := ⟨(bs.map hexEncodeByte).flatten⟩

/-- Value of one standard base64 alphabet character. -/
def b64Val (c : Char) : Option Nat :=
  if 'A' ≤ c ∧ c ≤ 'Z' then some (c.toNat - 'A'.toNat)
  else if 'a' ≤ c ∧ c ≤ 'z' then some (c.toNat - 'a'.toNat + 26)
  else if '0' ≤ c ∧ c ≤ '9' then some (c.toNat - '0'.toNat + 52)
  else if c = '+' then some 62
  else if c = '/' then some 63
  else none

/-- Standard base64 decoding on character lists: groups of four, padding
only in the final group, as in Go's `base64.StdEncoding.DecodeString`
(which ignores non-zero trailing padding bits). -/
def b64DecodeChars : List Char → Option Bytes
  | [] => some []
  | c1 :: c2 :: c3 :: c4 :: rest =>
    if rest.isEmpty ∧ c4 = '=' then
      if c3 = '=' then
        match b64Val c1, b64Val c2 with
        | some a, some b => some [a * 4 + b / 16]
        | _, _ => none
      else
        match b64Val c1, b64Val c2, b64Val c3 with
        | some a, some b, some c => some [a * 4 + b / 16, b % 16 * 16 + c / 4]
        | _, _, _ => none
    else
      match b64Val c1, b64Val c2, b64Val c3, b64Val c4, b64DecodeChars rest with
      | some a, some b, some c, some d, some r =>
        some ((a * 4 + b / 16) :: (b % 16 * 16 + c / 4) :: (c % 4 * 64 + d) :: r)
      | _, _, _, _, _ => none
  | _ => none

/-- Go `base64.StdEncoding.DecodeString`. -/
def base64Decode (s : String) : Option Bytes := b64DecodeChars s.data

/-- Standard base64 alphabet character of a 6-bit value. -/
def b64Char (n : Nat) : Char :=
  if n < 26 then Char.ofNat ('A'.toNat + n)
  else if n < 52 then Char.ofNat ('a'.toNat + n - 26)
  else if n < 62 then Char.ofNat ('0'.toNat + n - 52)
  else if n = 62 then '+'
  else '/'

/-- Standard base64 encoding of a byte list, three bytes per group with
`=` padding. -/
def b64EncodeChunks : Bytes → List Char
  | [] => []
  | [a] => [b64Char (a / 4 % 64), b64Char (a % 4 * 16), '=', '=']
  | [a, b] => [b64Char (a / 4 % 64), b64Char (a % 4 * 16 + b / 16), b64Char (b % 16 * 4), '=']
  | a :: b :: c :: rest =>
    b64Char (a / 4 % 64) :: b64Char (a % 4 * 16 + b / 16) ::
      b64Char (b % 16 * 4 + c / 64 % 4) :: b64Char (c % 64) :: b64EncodeChunks rest

/-- Go `base64.StdEncoding.EncodeToString`. -/
def base64Encode (bs : Bytes) : String := ⟨b64EncodeChunks bs⟩

/-- A nostr event, mirroring the fields of `nostr.Event` that the program
reads or writes. -/
structure Event where
  id : String
  pubkey : String
  created_at : Int
  kind : Int
  tags : List (List String)
  content : String
  sig : String
  deriving DecidableEq, Repr

/-- Abstract interface to the cryptographic primitives library
(btcec/musig2 and go-nostr event hashing), which the specification treats
as a trusted black box.  Public keys, nonces and partial signatures are
identified with their canonical serialized bytes. -/
structure Crypto where
  /-- `btcec.PrivKeyFromBytes`: compressed public key of a secret key. -/
  pubOf : Bytes → Bytes
  /-- `btcec.ParsePubKey`, returning the canonical serialized form. -/
  parsePubKey : Bytes → Option Bytes
  /-- `musig2.PartialSignature.Decode`, returning the canonical form. -/
  psDecode : Bytes → Option Bytes
  /-- `musig2.PartialSignature.Encode`. -/
  psEncode : Bytes → Bytes
  /-- success of `musig2.NewContext` with `WithNumSigners`/`WithEarlyNonceGen`. -/
  newCtxEarlyOk : Bytes → Int → Bool
  /-- success of `musig2.NewContext` with `WithKnownSigners`. -/
  newCtxKnownOk : Bytes → List Bytes → Bool
  /-- `Context.EarlySessionNonce`: (97-byte secret, 66-byte public) nonce pair. -/
  earlyNonce : Bytes → Int → Option (Bytes × Bytes)
  /-- `Context.CombinedKey`, serialized compressed. -/
  combinedKey : List Bytes → Option Bytes
  /-- nonce pair freshly generated by `Context.NewSession` (the last joiner). -/
  freshNonce : Bytes → List Bytes → Option (Bytes × Bytes)
  /-- success of `Context.NewSession` with `WithPreGeneratedNonce`. -/
  preSessionOk : Bytes → List Bytes → Bytes → Bool
  /-- whether a 66-byte public nonce parses as two valid curve points. -/
  nonceValid : Bytes → Bool
  /-- `Session.Sign`: partial signature over a 32-byte message. -/
  partialSign : Bytes → Bytes → Option Bytes
  /-- serialized final signature from `Session.FinalSig`. -/
  finalSig : Bytes → List Bytes → Bytes
  /-- `secNonceToPubNonce` (copied into musig2.go from btcec). -/
  secNonceToPubNonce : Bytes → Bytes
  /-- `nostr.Event.GetID`: hex-encoded 32-byte event digest. -/
  eventId : Event → String

/-- State of a `musig2.Session`, modelled after the library's bookkeeping:
the set of registered public nonces and the list of combined partial
signatures (own signature included by `Sign`). -/
structure Session where
  numSigners : Nat
  myPubNonce : Bytes
  pubNonces : List Bytes
  haveAllNonces : Bool
  sigs : List Bytes
  haveFinal : Bool
  deriving DecidableEq, Repr

/-- A fresh session holding only its own public nonce, as created by
`Context.NewSession`. -/
def Session.init (numSigners : Nat) (pubN : Bytes) : Session :=
  ⟨numSigners, pubN, [pubN], numSigners == 1, [], false⟩

/-- `Session.RegisterPubNonce`: errors once all nonces are present, stores
the nonce, and reports (and fixes) completeness when the count reaches the
signer count; aggregation fails if some registered nonce is invalid. -/
def Session.register (c : Crypto) (s : Session) (nonce : Bytes) : Option (Bool × Session) :=
  if s.haveAllNonces then none
  else
    let ns := s.pubNonces ++ [nonce]
    let all := ns.length == s.numSigners
    if all ∧ ¬(ns.all c.nonceValid) then none
    else some (all, { s with pubNonces := ns, haveAllNonces := all })

/-- `Session.Sign`: requires the combined nonce, produces this signer's
partial signature and folds it into the session's signature list. -/
def Session.trySign (c : Crypto) (s : Session) (secb msg : Bytes) : Option (Bytes × Session) :=
  if s.haveAllNonces = false then none
  else
    match c.partialSign secb msg with
    | none => none
    | some ps => some (ps, { s with sigs := s.sigs ++ [ps] })

/-- `Session.CombineSig`: errors on reuse after the final signature or when
all signatures are already present; otherwise adds the signature and
reports finality when the count reaches the signer count. -/
def Session.combine (s : Session) (ps : Bytes) : Option (Bool × Session) :=
  if s.haveFinal then none
  else if s.sigs.length == s.numSigners then none
  else
    let sigs2 := s.sigs ++ [ps]
    let fin := sigs2.length == s.numSigners
    some (fin, { s with sigs := sigs2, haveFinal := fin })

/-- Errors of one invocation, one constructor per `return false, err` site
of `performMusig`. -/
inductive MErr where
  | secDecode
  | keyDecode (s : String)
  | keyParse (s : String)
  | nonceDecode (s : String)
  | nonceLength (s : String)
  | psDecodeHex (s : String)
  | psInvalid (s : String)
  | ctxEarly
  | ctxKnown
  | earlyNonceFail
  | combineKeyFail
  | sessionLast
  | missingSecret
  | invalidSecNonce
  | sessionPre
  | registerFail
  | noncesMissing
  | signFail
  | combineSigFail
  deriving DecidableEq, Repr

/-- One diagnostic/secret-channel output line (stderr in the Go code). -/
inductive Out where
  | secretNonce (b64 : String)
  | combinedKey (hex : String)
  | resumeCmd (cmd : String)
  deriving DecidableEq, Repr

/-- Result of one `performMusig` invocation: the Go return values, the
(possibly updated) target event, the private-channel output lines in
order, and an instrumentation counter of `Session.Sign` attempts. -/
structure MusigResult where
  signed : Bool
  error : Option MErr
  evt : Event
  outs : List Out
  signCalls : Nat
  deriving DecidableEq, Repr

/-- The supplied-keys loop of `performMusig` (musig2.go lines 37-51):
hex-decode and parse each key in order, recording whether the local public
key was among them. -/
def parseSigners (c : Crypto) (pubk : Bytes) : List String → Except MErr (List Bytes × Bool)
  | [] => .ok ([], false)
  | hexpub :: rest =>
    match hexDecode hexpub with
    | none => .error (.keyDecode hexpub)
    | some bpub =>
      match c.parsePubKey bpub with
      | none => .error (.keyParse hexpub)
      | some spub =>
        match parseSigners c pubk rest with
        | .error e => .error e
        | .ok (sigs, inc) => .ok (spub :: sigs, if spub = pubk then true else inc)

/-- Lines 29-54: decode the secret key, parse all supplied keys and append
the local public key when it was absent. -/
def buildKnownSigners (c : Crypto) (sec : String) (keys : List String) :
    Except MErr (Bytes × Bytes × List Bytes) :=
  match hexDecode sec with
  | none => .error .secDecode
  | some secb =>
    let pubk := c.pubOf secb
    match parseSigners c pubk keys with
    | .error e => .error e
    | .ok (ks, includesUs) =>
      .ok (secb, pubk, if includesUs then ks else ks ++ [pubk])

/-- Lines 56-68: hex-decode each public nonce and require exactly 66
bytes. -/
def parseNonces : List String → Except MErr (List Bytes)
  | [] => .ok []
  | hexnonce :: rest =>
    match hexDecode hexnonce with
    | none => .error (.nonceDecode hexnonce)
    | some bnonce =>
      if bnonce.length ≠ 66 then .error (.nonceLength hexnonce)
      else
        match parseNonces rest with
        | .error e => .error e
        | .ok r => .ok (bnonce :: r)

/-- Lines 70-81: hex-decode each partial signature and decode it with the
primitives library. -/
def parsePartialSigs (c : Crypto) : List String → Except MErr (List Bytes)
  | [] => .ok []
  | hexps :: rest =>
    match hexDecode hexps with
    | none => .error (.psDecodeHex hexps)
    | some bps =>
      match c.psDecode bps with
      | none => .error (.psInvalid hexps)
      | some ps =>
        match parsePartialSigs c rest with
        | .error e => .error e
        | .ok r => .ok (ps :: r)

/-- Lines 128-157: create the signing session.  The last key-joiner
(supplied key count = N-1) generates a fresh nonce; everyone else must
supply the base64 secret nonce, which is copied into a zeroed 97-byte
array (truncating or zero-padding, with no length check).  The returned
flag says whether the session's own public nonce must be appended to the
known-nonce list. -/
def mkSigningSession (c : Crypto) (secb : Bytes) (knownSigners : List Bytes)
    (numSigners : Int) (numKeys : Nat) (secNonce : String) :
    Except MErr (Session × Bool) :=
  if (numKeys : Int) = numSigners - 1 then
    match c.freshNonce secb knownSigners with
    | none => .error .sessionLast
    | some (_, pubN) => .ok (Session.init knownSigners.length pubN, true)
  else
    if secNonce = "" then .error .missingSecret
    else
      match base64Decode secNonce with
      | none => .error .invalidSecNonce
      | some secNonceB =>
        let secNonce97 := (secNonceB ++ List.replicate 97 0).take 97
        if c.preSessionOk secb knownSigners secNonce97 then
          .ok (Session.init knownSigners.length (c.secNonceToPubNonce secNonce97), false)
        else .error .sessionPre

/-- Lines 159-170: register every known public nonce, skipping the
session's own; `ok` carries the last registration's completeness report
(initially false). -/
def registerNonces (c : Crypto) (s : Session) : List Bytes → Bool → Except MErr (Session × Bool)
  | [], ok => .ok (s, ok)
  | n :: rest, ok =>
    if n = s.myPubNonce then registerNonces c s rest ok
    else
      match Session.register c s n with
      | none => .error .registerFail
      | some (ok2, s2) => registerNonces c s2 rest ok2

/-- Lines 193-198: combine every supplied partial signature into the
session. -/
def combineAll (s : Session) : List Bytes → Except MErr Session
  | [] => .ok s
  | ps :: rest =>
    match s.combine ps with
    | none => .error .combineSigFail
    | some (_, s2) => combineAll s2 rest

/-- Lines 177-180: the 32-byte message is the hex-decoded event id copied
into a zeroed 32-byte array. -/
def msgOf (c : Crypto) (evt : Event) : Bytes :=
  (((hexDecode (c.eventId evt)).getD []) ++ List.replicate 32 0).take 32

/-- `tag.Key()` of go-nostr: the first element, or empty. -/
def tagKey (tag : List String) : String := tag.headD ""

/-- One `-t` flag of `eventToCliArgs` (lines 244-258). -/
def tagToCliArg (tag : List String) : String :=
  " -t '" ++ tagKey tag ++
    (match tag with
     | _ :: v :: rest => "=" ++ v ++ String.join (rest.map (fun item => "," ++ item))
     | _ => "") ++ "'"

/-- Lines 230-261: serialize the event fields as flags. -/
def eventToCliArgs (evt : Event) : String :=
  "-k " ++ toString evt.kind ++ " -ts " ++ toString evt.created_at ++
    " -c '" ++ evt.content ++ "'" ++ String.join (evt.tags.map tagToCliArg)

/-- Lines 263-273: one `--musig2-pubkey` flag per signer, lowercase hex. -/
def signersToCliArgs (knownSigners : List Bytes) : String :=
  String.join (knownSigners.map (fun k => " --musig2-pubkey " ++ hexEncode k))

/-- Lines 275-285: one `--musig2-nonce` flag per nonce, lowercase hex. -/
def noncesToCliArgs (knownNonces : List Bytes) : String :=
  String.join (knownNonces.map (fun n => " --musig2-nonce " ++ hexEncode n))

/-- Lines 287-299: one `--musig2-partial` flag per partial signature,
encoded by the primitives library then lowercase hex. -/
def partialSigsToCliArgs (c : Crypto) (knownPartialSigs : List Bytes) : String :=
  String.join (knownPartialSigs.map (fun p => " --musig2-partial " ++ hexEncode (c.psEncode p)))

/-- Lines 207-228: the full resume command printed for the next peer. -/
def printPublicCommandForNextPeer (c : Crypto) (evt : Event) (numSigners : Int)
    (knownSigners knownNonces knownPartialSigs : List Bytes)
    (includeNonceSecret : Bool) : String :=
  "the next signer and they should call this on their side:\nnak event --sec <their-key> --musig2 " ++
    toString numSigners ++ " " ++ eventToCliArgs evt ++ signersToCliArgs knownSigners ++
    noncesToCliArgs knownNonces ++ partialSigsToCliArgs c knownPartialSigs ++
    (if includeNonceSecret then " --musig2-nonce-secret '<their-nonce-secret>'" else "") ++ "\n"

/-- Lines 175-204: the signing phase.  Always signs freshly; if partial
signatures are still missing the own signature is appended only to the
printed resume command; otherwise all supplied partial signatures are
combined and the hex final signature is written into the event. -/
def signingPhase (c : Crypto) (evt : Event) (outs0 : List Out) (session : Session)
    (numSigners : Int) (knownSigners knownNonces knownPartialSigs : List Bytes)
    (secb : Bytes) : MusigResult :=
  let msg32 := msgOf c evt
  match Session.trySign c session secb msg32 with
  | none => ⟨false, some .signFail, evt, outs0, 1⟩
  | some (partialSig, s2) =>
    if knownPartialSigs.length + 1 < knownSigners.length then
      ⟨false, none, evt,
        outs0 ++ [Out.resumeCmd (printPublicCommandForNextPeer c evt numSigners knownSigners
          knownNonces (knownPartialSigs ++ [partialSig]) true)], 1⟩
    else
      match combineAll s2 knownPartialSigs with
      | .error e => ⟨false, some e, evt, outs0, 1⟩
      | .ok s3 =>
        ⟨true, none, { evt with sig := hexEncode (c.finalSig msg32 s3.sigs) }, outs0, 1⟩

/-- The whole of `performMusig` (musig2.go lines 18-205).  The two
branches on `knownSigners.length < numSigners` (context creation and nonce
generation) are mirrored as one nested conditional, which is equivalent
since nothing changes between the two identical tests in the source. -/
def performMusig (c : Crypto) (sec : String) (evt : Event) (numSigners : Int)
    (keys nonces : List String) (secNonce : String) (partialSigs : List String) :
    MusigResult :=
  match buildKnownSigners c sec keys with
  | .error e => ⟨false, some e, evt, [], 0⟩
  | .ok (secb, _pubk, knownSigners) =>
    match parseNonces nonces with
    | .error e => ⟨false, some e, evt, [], 0⟩
    | .ok knownNonces =>
      match parsePartialSigs c partialSigs with
      | .error e => ⟨false, some e, evt, [], 0⟩
      | .ok knownPartialSigs =>
        if (knownSigners.length : Int) < numSigners then
          if c.newCtxEarlyOk secb numSigners = false then ⟨false, some .ctxEarly, evt, [], 0⟩
          else
            match c.earlyNonce secb numSigners with
            | none => ⟨false, some .earlyNonceFail, evt, [], 0⟩
            | some (secN, pubN) =>
              ⟨false, none, evt,
                [Out.secretNonce (base64Encode secN),
                 Out.resumeCmd (printPublicCommandForNextPeer c evt numSigners knownSigners
                   (knownNonces ++ [pubN]) [] false)], 0⟩
        else
          if c.newCtxKnownOk secb knownSigners = false then ⟨false, some .ctxKnown, evt, [], 0⟩
          else
            match c.combinedKey knownSigners with
            | none => ⟨false, some .combineKeyFail, evt, [], 0⟩
            | some comb =>
              let outs0 := [Out.combinedKey (hexEncode comb)]
              match mkSigningSession c secb knownSigners numSigners keys.length secNonce with
              | .error e => ⟨false, some e, evt, outs0, 0⟩
              | .ok (session0, appended) =>
                let knownNonces2 :=
                  if appended then knownNonces ++ [session0.myPubNonce] else knownNonces
                match registerNonces c session0 knownNonces2 false with
                | .error e => ⟨false, some e, evt, outs0, 0⟩
                | .ok (session1, noncesOk) =>
                  if noncesOk = false then ⟨false, some .noncesMissing, evt, outs0, 0⟩
                  else
                    signingPhase c evt outs0 session1 numSigners knownSigners knownNonces2
                      knownPartialSigs secb

/-- Environment of the MCP server handler: the `NOSTR_SECRET_KEY`
environment variable and the external go-nostr/SDK collaborators. -/
structure McpEnv where
  nostrSecretKey : String
  /-- `nostr.IsValidPublicKey`. -/
  isValidPubKey : String → Bool
  /-- `sys.FetchInboxRelays` (3 requested). -/
  inboxRelays : String → List String
  /-- `sys.FetchOutboxRelays` (3 requested). -/
  outboxRelays : String → List String
  /-- `evt.Sign(sk)`: returns the event with id, pubkey and sig set. -/
  signEvt : String → Event → Event
  /-- `nostr.Now()`. -/
  now : Int

/-- Outcome of the `publish_note` tool handler: the tool error text if
any, the signed event handed to `PublishMany`, the relay list it was
published to, and the secret key passed to `Sign`. -/
structure PublishResult where
  error : Option String
  event : Option Event
  relays : List String
  skUsed : Option String
  deriving DecidableEq, Repr

/-- The hardcoded secret key used when `NOSTR_SECRET_KEY` is empty
(mcp.go `publish_note`). -/
def fallbackSecretKey : String :=
  "0000000000000000000000000000000000000000000000000000000000000001"

/-- The `publish_note` tool handler (mcp.go lines 34-99): validate the
mention, fall back to the hardcoded secret key when none is configured,
build and sign the kind-1 event, and publish to the gathered relays. -/
def publishNote (env : McpEnv) (content mention relay : String) : PublishResult :=
  if mention ≠ "" ∧ env.isValidPubKey mention = false then
    ⟨some "the given mention isn't a valid public key, it must be 32 bytes hex, like the ones returned by search_profile",
      none, [], none⟩
  else
    let sk := if env.nostrSecretKey = "" then fallbackSecretKey else env.nostrSecretKey
    let evt0 : Event := ⟨"", "", env.now, 1, [["client", "goose/nak"]], content, ""⟩
    let evt1 := if mention ≠ "" then { evt0 with tags := evt0.tags ++ [["p", mention]] } else evt0
    let relays0 := if mention ≠ "" then env.inboxRelays mention else []
    let evt2 := env.signEvt sk evt1
    let relays1 := relays0 ++ env.outboxRelays evt2.pubkey
    let relays2 := if relays1 = [] then ["nos.lol", "relay.damus.io"] else relays1
    let relays3 := if relay ≠ "" then relays2 ++ [relay] else relays2
    ⟨none, some evt2, relays3, some sk⟩

/-- A concrete primitives instance used to evaluate the embedding on
closed inputs (witnesses and counterexamples). -/
def cT : Crypto where
  pubOf := fun b => 2 :: b
  parsePubKey := fun b => some b
  psDecode := fun b => some b
  psEncode := fun b => b
  newCtxEarlyOk := fun _ _ => true
  newCtxKnownOk := fun _ _ => true
  earlyNonce := fun _ _ => some (List.replicate 97 7, List.replicate 66 9)
  combinedKey := fun _ => some [7]
  freshNonce := fun _ _ => some (List.replicate 97 5, List.replicate 66 4)
  preSessionOk := fun _ _ _ => true
  nonceValid := fun _ => true
  partialSign := fun _ _ => some [9, 9]
  finalSig := fun _ _ => List.replicate 64 1
  secNonceToPubNonce := fun _ => List.replicate 66 1
  eventId := fun _ => "ff"

/-- A concrete target event for closed evaluations. -/
def eT : Event := ⟨"", "", 1700000000, 1, [["t", "x"]], "hello", ""⟩

/-- Two events agree on every field except possibly the signature. -/
def sameExceptSig (e1 e2 : Event) : Prop :=
  e1.id = e2.id ∧ e1.pubkey = e2.pubkey ∧ e1.created_at = e2.created_at ∧
    e1.kind = e2.kind ∧ e1.tags = e2.tags ∧ e1.content = e2.content

/-- A character is a canonical (lowercase) hex digit. -/
def isLowerHexChar (ch : Char) : Prop :=
  ('0' ≤ ch ∧ ch ≤ '9') ∨ ('a' ≤ ch ∧ ch ≤ 'f')

instance : DecidablePred isLowerHexChar := by
  intro ch
  unfold isLowerHexChar
  infer_instance

/-- The hex values carried by the `--musig2-pubkey` flags of the resume
command (`signersToCliArgs`), i.e. what the next invocation receives as
its `keys` input. -/
def signerTokens (ks : List Bytes) : List String := ks.map hexEncode

/-- The hex values carried by the `--musig2-nonce` flags
(`noncesToCliArgs`). -/
def nonceTokens (ns : List Bytes) : List String := ns.map hexEncode

/-- The hex values carried by the `--musig2-partial` flags
(`partialSigsToCliArgs`). -/
def partialSigTokens (c : Crypto) (ps : List Bytes) : List String :=
  ps.map (fun p => hexEncode (c.psEncode p))

theorem hexDigitVal_hexDigitChar : ∀ n < 16, hexDigitVal (hexDigitChar n) = some n := by
  decide

theorem hexDigitChar_lower : ∀ n < 16, isLowerHexChar (hexDigitChar n) := by
  decide

/-- Hex decoding undoes hex encoding on genuine byte lists. -/
theorem hexDecode_hexEncode (bs : Bytes) (h : ∀ b ∈ bs, b < 256) :
    hexDecode (hexEncode bs) = some bs := by
  have key : ∀ l : Bytes, (∀ b ∈ l, b < 256) →
      hexDecodeChars ((l.map hexEncodeByte).flatten) = some l := by
    intro l
    induction l with
    | nil => intro _; rfl
    | cons b rest ih =>
      intro hl
      have hb : b < 256 := hl b (List.mem_cons_self b rest)
      have hdiv : b / 16 < 16 := by omega
      have hmod : b % 16 < 16 := by omega
      have h1 : hexDigitVal (hexDigitChar (b / 16 % 16)) = some (b / 16 % 16) :=
        hexDigitVal_hexDigitChar _ (Nat.mod_lt _ (by norm_num))
      have h2 : hexDigitVal (hexDigitChar (b % 16)) = some (b % 16) :=
        hexDigitVal_hexDigitChar _ hmod
      have h3 := ih (fun x hx => hl x (List.mem_cons_of_mem b hx))
      show hexDecodeChars (hexDigitChar (b / 16 % 16) :: hexDigitChar (b % 16) ::
        (rest.map hexEncodeByte).flatten) = some (b :: rest)
      rw [hexDecodeChars, h1, h2, h3]
      have hv : 16 * (b / 16 % 16) + b % 16 = b := by
        rw [Nat.mod_eq_of_lt hdiv]; omega
      simp [hv]
  exact key bs h

/-- Hex encoding emits only lowercase hex digits. -/
theorem hexEncode_lower (bs : Bytes) : ∀ ch ∈ (hexEncode bs).data, isLowerHexChar ch := by
  intro ch hch
  have hch2 : ch ∈ (bs.map hexEncodeByte).flatten := hch
  rw [List.mem_flatten] at hch2
  obtain ⟨l, hl, hchl⟩ := hch2
  rw [List.mem_map] at hl
  obtain ⟨b, _, rfl⟩ := hl
  simp only [hexEncodeByte, List.mem_cons, List.not_mem_nil, or_false] at hchl
  rcases hchl with rfl | rfl
  · exact hexDigitChar_lower _ (Nat.mod_lt _ (by norm_num))
  · exact hexDigitChar_lower _ (Nat.mod_lt _ (by norm_num))

/-- The session after one mid-stream `CombineSig`. -/
def Session.afterCombine (s : Session) (p : Bytes) : Session :=
  ⟨s.numSigners, s.myPubNonce, s.pubNonces, s.haveAllNonces, s.sigs ++ [p],
    (s.sigs ++ [p]).length == s.numSigners⟩

/-- Reduction of `Session.combine` while signatures are still missing. -/
theorem Session.combine_step (s : Session) (p : Bytes) (h1 : s.haveFinal = false)
    (h2 : s.sigs.length < s.numSigners) :
    s.combine p = some ((s.sigs ++ [p]).length == s.numSigners, s.afterCombine p) := by
  rw [Session.combine, if_neg (by simp [h1]), if_neg (by simp [Nat.ne_of_lt h2])]
  rfl

/-- Combining exactly the number of missing partial signatures succeeds
and accumulates them all. -/
theorem combineAll_exact : ∀ (ps : List Bytes) (s : Session), s.haveFinal = false →
    s.sigs.length + ps.length = s.numSigners →
    ∃ s', combineAll s ps = .ok s' ∧ s'.sigs = s.sigs ++ ps := by
  intro ps
  induction ps with
  | nil => intro s _ _; exact ⟨s, rfl, by simp⟩
  | cons p rest ih =>
    intro s h1 h2
    have hlt : s.sigs.length < s.numSigners := by
      simp only [List.length_cons] at h2; omega
    rw [combineAll, Session.combine_step s p h1 hlt]
    cases rest with
    | nil => exact ⟨_, rfl, by simp [Session.afterCombine]⟩
    | cons q qs =>
      have hfin2 : (s.afterCombine p).haveFinal = false := by
        show ((s.sigs ++ [p]).length == s.numSigners) = false
        have hx : (s.sigs ++ [p]).length ≠ s.numSigners := by
          simp only [List.length_append, List.length_cons, List.length_nil] at h2 ⊢
          omega
        simpa using hx
      have hlen2 : (s.afterCombine p).sigs.length + (q :: qs).length =
          (s.afterCombine p).numSigners := by
        show (s.sigs ++ [p]).length + (q :: qs).length = s.numSigners
        simp only [List.length_append, List.length_cons, List.length_nil] at h2 ⊢
        omega
      obtain ⟨s', hs', hsigs⟩ := ih (s.afterCombine p) hfin2 hlen2
      refine ⟨s', hs', ?_⟩
      rw [hsigs]
      simp [Session.afterCombine]

/-- Combining more partial signatures than the signer count admits fails
with a combination error. -/
theorem combineAll_over : ∀ (ps : List Bytes) (s : Session),
    s.sigs.length ≤ s.numSigners →
    s.numSigners < s.sigs.length + ps.length →
    combineAll s ps = .error .combineSigFail := by
  intro ps
  induction ps with
  | nil => intro s h1 h2; simp at h2; omega
  | cons p rest ih =>
    intro s h1 h2
    by_cases hf : s.haveFinal = true
    · rw [combineAll, Session.combine, if_pos hf]
    · have hf2 : s.haveFinal = false := by
        cases hx : s.haveFinal
        · rfl
        · exact absurd hx hf
      by_cases he : s.sigs.length = s.numSigners
      · rw [combineAll, Session.combine, if_neg (by simp [hf2]), if_pos (by simp [he])]
      · have hlt : s.sigs.length < s.numSigners := by omega
        rw [combineAll, Session.combine_step s p hf2 hlt]
        have hle2 : (s.afterCombine p).sigs.length ≤ (s.afterCombine p).numSigners := by
          show (s.sigs ++ [p]).length ≤ s.numSigners
          simp only [List.length_append, List.length_cons, List.length_nil]
          omega
        have hgt2 : (s.afterCombine p).numSigners <
            (s.afterCombine p).sigs.length + rest.length := by
          show s.numSigners < (s.sigs ++ [p]).length + rest.length
          simp only [List.length_cons] at h2
          simp only [List.length_append, List.length_cons, List.length_nil]
          omega
        exact ih (s.afterCombine p) hle2 hgt2

/-- A successful key parse yields one parsed key per supplied key. -/
theorem parseSigners_ok_length (c : Crypto) (pubk : Bytes) :
    ∀ (keys : List String) (ks : List Bytes) (inc : Bool),
    parseSigners c pubk keys = .ok (ks, inc) → ks.length = keys.length := by
  intro keys
  induction keys with
  | nil => intro ks inc h; rw [parseSigners] at h; cases h; rfl
  | cons k rest ih =>
    intro ks inc h
    rw [parseSigners] at h
    cases hd : hexDecode k with
    | none => simp [hd] at h
    | some bpub =>
      simp only [hd] at h
      cases hp : c.parsePubKey bpub with
      | none => simp [hp] at h
      | some spub =>
        simp only [hp] at h
        cases hr : parseSigners c pubk rest with
        | error e => simp [hr] at h
        | ok pr =>
          obtain ⟨sigs, inc2⟩ := pr
          simp only [hr, Except.ok.injEq, Prod.mk.injEq] at h
          obtain ⟨h5, _⟩ := h
          subst h5
          simp [ih sigs inc2 hr]

/-- The `includesUs` flag of a successful key parse is set exactly when
the local public key is among the parsed keys. -/
theorem parseSigners_ok_inc (c : Crypto) (pubk : Bytes) :
    ∀ (keys : List String) (ks : List Bytes) (inc : Bool),
    parseSigners c pubk keys = .ok (ks, inc) → (inc = true ↔ pubk ∈ ks) := by
  intro keys
  induction keys with
  | nil =>
    intro ks inc h; rw [parseSigners] at h; cases h
    simp
  | cons k rest ih =>
    intro ks inc h
    rw [parseSigners] at h
    cases hd : hexDecode k with
    | none => simp [hd] at h
    | some bpub =>
      simp only [hd] at h
      cases hp : c.parsePubKey bpub with
      | none => simp [hp] at h
      | some spub =>
        simp only [hp] at h
        cases hr : parseSigners c pubk rest with
        | error e => simp [hr] at h
        | ok pr =>
          obtain ⟨sigs, inc2⟩ := pr
          simp only [hr, Except.ok.injEq, Prod.mk.injEq] at h
          obtain ⟨h5, h6⟩ := h
          subst h5
          subst h6
          by_cases hs : spub = pubk
          · subst hs; simp
          · have hne : pubk ≠ spub := fun hx => hs hx.symm
            simp [hs, ih sigs inc2 hr, List.mem_cons, hne]

/-- Nonce parsing, when every value hex-decodes but some decoded value is
not 66 bytes long, fails with a length error on the first such value. -/
theorem parseNonces_bad_length : ∀ (ns : List String),
    (∀ x ∈ ns, (hexDecode x).isSome) →
    (∃ x ∈ ns, ∃ b, hexDecode x = some b ∧ b.length ≠ 66) →
    ∃ x b, hexDecode x = some b ∧ b.length ≠ 66 ∧
      parseNonces ns = .error (.nonceLength x) := by
  intro ns
  induction ns with
  | nil => intro _ hex; simp at hex
  | cons n rest ih =>
    intro hall hex
    obtain ⟨b, hb⟩ := Option.isSome_iff_exists.mp (hall n (List.mem_cons_self n rest))
    by_cases hlen : b.length = 66
    · have hrest : ∃ x ∈ rest, ∃ b, hexDecode x = some b ∧ b.length ≠ 66 := by
        obtain ⟨x, hx, bx, hbx, hbxl⟩ := hex
        rcases List.mem_cons.mp hx with rfl | hx2
        · rw [hb] at hbx; cases hbx; exact absurd hlen hbxl
        · exact ⟨x, hx2, bx, hbx, hbxl⟩
      obtain ⟨x, bx, hbx, hbxl, hpr⟩ :=
        ih (fun y hy => hall y (List.mem_cons_of_mem n hy)) hrest
      refine ⟨x, bx, hbx, hbxl, ?_⟩
      rw [parseNonces]
      simp only [hb, if_neg (by simp [hlen] : ¬b.length ≠ 66), hpr]
    · refine ⟨n, b, hb, hlen, ?_⟩
      rw [parseNonces]
      simp only [hb, if_pos hlen]

/-- C2: when, after self-insertion, fewer than N keys are known, the
invocation generates a nonce under the early context, emits the secret
half only as a private-channel line, appends the public half to the
outgoing nonce sequence of the printed resume command, and returns
unsigned without touching the event and without any signing attempt. -/
theorem musig_key_gathering (c : Crypto) (sec : String) (evt : Event) (numSigners : Int)
    (keys nonces : List String) (secNonce : String) (partialSigs : List String)
    (secb pubk sN pN : Bytes) (ks kn kps : List Bytes)
    (h1 : buildKnownSigners c sec keys = .ok (secb, pubk, ks))
    (h2 : parseNonces nonces = .ok kn)
    (h3 : parsePartialSigs c partialSigs = .ok kps)
    (h4 : (ks.length : Int) < numSigners)
    (h5 : c.newCtxEarlyOk secb numSigners = true)
    (h6 : c.earlyNonce secb numSigners = some (sN, pN)) :
    performMusig c sec evt numSigners keys nonces secNonce partialSigs =
      ⟨false, none, evt,
        [Out.secretNonce (base64Encode sN),
         Out.resumeCmd (printPublicCommandForNextPeer c evt numSigners ks
           (kn ++ [pN]) [] false)], 0⟩ := by
  rw [performMusig]
  simp only [h1, h2, h3, if_pos h4, h5, h6]
  simp

/-- Witness for C2 at a concrete input. -/
theorem musig_key_gathering_witness :
    (buildKnownSigners cT "01" [] = .ok ([1], [2, 1], [[2, 1]]) ∧
      parseNonces [] = (.ok [] : Except MErr (List Bytes)) ∧
      parsePartialSigs cT [] = (.ok [] : Except MErr (List Bytes)) ∧
      (([[2, 1]] : List Bytes).length : Int) < 2 ∧
      cT.newCtxEarlyOk [1] 2 = true ∧
      cT.earlyNonce [1] 2 = some (List.replicate 97 7, List.replicate 66 9)) ∧
    performMusig cT "01" eT 2 [] [] "" [] =
      ⟨false, none, eT,
        [Out.secretNonce (base64Encode (List.replicate 97 7)),
         Out.resumeCmd (printPublicCommandForNextPeer cT eT 2 [[2, 1]]
           ([] ++ [List.replicate 66 9]) [] false)], 0⟩ :=
  ⟨⟨rfl, rfl, rfl, by decide, rfl, rfl⟩,
    musig_key_gathering cT "01" eT 2 [] [] "" [] [1] [2, 1]
      (List.replicate 97 7) (List.replicate 66 9) [[2, 1]] [] []
      rfl rfl rfl (by decide) rfl rfl⟩

/-- C5: when the secret key and the supplied keys are well-formed and
every supplied nonce hex-decodes but some decoded nonce is not exactly 66
bytes, the invocation fails with the length-validation error, performs no
later phase (no output, no signing attempt) and leaves the event
untouched. -/
theorem musig_nonce_length_error (c : Crypto) (sec : String) (evt : Event)
    (numSigners : Int) (keys nonces : List String) (secNonce : String)
    (partialSigs : List String) (secb pubk : Bytes) (ks : List Bytes)
    (h1 : buildKnownSigners c sec keys = .ok (secb, pubk, ks))
    (h2 : ∀ x ∈ nonces, (hexDecode x).isSome)
    (h3 : ∃ x ∈ nonces, ∃ b, hexDecode x = some b ∧ b.length ≠ 66) :
    ∃ x, performMusig c sec evt numSigners keys nonces secNonce partialSigs =
      ⟨false, some (.nonceLength x), evt, [], 0⟩ := by
  obtain ⟨x, b, hbx, hbl, hpn⟩ := parseNonces_bad_length nonces h2 h3
  refine ⟨x, ?_⟩
  rw [performMusig]
  simp only [h1, hpn]

/-- Witness for C5 at a concrete input (a 65-byte nonce value). -/
theorem musig_nonce_length_error_witness :
    (buildKnownSigners cT "01" [] = .ok ([1], [2, 1], [[2, 1]]) ∧
      (∀ x ∈ [String.mk (List.replicate 130 '0')], (hexDecode x).isSome) ∧
      (∃ x ∈ [String.mk (List.replicate 130 '0')], ∃ b,
        hexDecode x = some b ∧ b.length ≠ 66)) ∧
    (∃ x, performMusig cT "01" eT 2 [] [String.mk (List.replicate 130 '0')] "" [] =
      ⟨false, some (.nonceLength x), eT, [], 0⟩) :=
  ⟨⟨rfl, by decide, by decide⟩,
    musig_nonce_length_error cT "01" eT 2 [] [String.mk (List.replicate 130 '0')] "" []
      [1] [2, 1] [[2, 1]] rfl (by decide) (by decide)⟩

/-- C3: in the all-keys-known phase, the invocation whose key completed
the set (supplied key count = N-1) creates its session by generating the
final nonce directly, for any value of the secret-nonce argument; every
other invocation with an empty secret-nonce argument fails with the
missing-secret error before any signing attempt. -/
theorem musig_nonce_secret_requirement (c : Crypto) (sec : String) (evt : Event)
    (numSigners : Int) (keys nonces partialSigs : List String)
    (secb pubk comb : Bytes) (ks kn kps : List Bytes)
    (h1 : buildKnownSigners c sec keys = .ok (secb, pubk, ks))
    (h2 : parseNonces nonces = .ok kn)
    (h3 : parsePartialSigs c partialSigs = .ok kps)
    (h4 : ¬((ks.length : Int) < numSigners))
    (h5 : c.newCtxKnownOk secb ks = true)
    (h6 : c.combinedKey ks = some comb) :
    ((keys.length : Int) = numSigners - 1 →
      ∀ sN pN, c.freshNonce secb ks = some (sN, pN) →
        ∀ secNonce, mkSigningSession c secb ks numSigners keys.length secNonce =
          .ok (Session.init ks.length pN, true)) ∧
    ((keys.length : Int) ≠ numSigners - 1 →
      performMusig c sec evt numSigners keys nonces "" partialSigs =
        ⟨false, some .missingSecret, evt, [Out.combinedKey (hexEncode comb)], 0⟩) := by
  constructor
  · intro hlast sN pN hfn secNonce
    rw [mkSigningSession, if_pos hlast, hfn]
  · intro hother
    rw [performMusig]
    simp only [h1, h2, h3, if_neg h4, h5, h6]
    rw [mkSigningSession, if_neg hother, if_pos rfl]
    simp

/-- Witness for C3 at a concrete input (a later joiner, no secret nonce
supplied). -/
theorem musig_nonce_secret_requirement_witness :
    (buildKnownSigners cT "01" ["03", "0201"] = .ok ([1], [2, 1], [[3], [2, 1]]) ∧
      parseNonces [] = (.ok [] : Except MErr (List Bytes)) ∧
      parsePartialSigs cT [] = (.ok [] : Except MErr (List Bytes)) ∧
      ¬((([[3], [2, 1]] : List Bytes).length : Int) < 2) ∧
      cT.newCtxKnownOk [1] [[3], [2, 1]] = true ∧
      cT.combinedKey [[3], [2, 1]] = some [7]) ∧
    (((2 : Nat) : Int) = 2 - 1 →
      ∀ sN pN, cT.freshNonce [1] [[3], [2, 1]] = some (sN, pN) →
        ∀ secNonce, mkSigningSession cT [1] [[3], [2, 1]] 2 2 secNonce =
          .ok (Session.init 2 pN, true)) ∧
    (((2 : Nat) : Int) ≠ 2 - 1 →
      performMusig cT "01" eT 2 ["03", "0201"] [] "" [] =
        ⟨false, some .missingSecret, eT, [Out.combinedKey (hexEncode [7])], 0⟩) :=
  ⟨⟨rfl, rfl, rfl, by decide, rfl, rfl⟩,
    musig_nonce_secret_requirement cT "01" eT 2 ["03", "0201"] [] []
      [1] [2, 1] [7] [[3], [2, 1]] [] []
      rfl rfl rfl (by decide) rfl rfl⟩

/-- C1: in the signing phase (session holds all nonces, no signature yet,
as many session signers as known keys, which number N), the invocation
always produces its own partial signature freshly (exactly one signing
call); it completes exactly when supplied-partial-count + 1 = N, writing
the hex-encoded combined signature into the event; when short it only
appends the own signature to the printed resume command and reports not
signed; when over-supplied it fails with a combination error. -/
theorem musig_signing_phase_completion (c : Crypto) (evt : Event) (outs0 : List Out)
    (s : Session) (numSigners : Int) (ks kn kps : List Bytes) (secb myPs : Bytes)
    (hall : s.haveAllNonces = true) (hsigs : s.sigs = []) (hfin : s.haveFinal = false)
    (hnum : s.numSigners = ks.length) (hpos : 1 ≤ ks.length)
    (hN : (ks.length : Int) = numSigners)
    (hsig : c.partialSign secb (msgOf c evt) = some myPs) :
    (kps.length + 1 = ks.length →
      signingPhase c evt outs0 s numSigners ks kn kps secb =
        ⟨true, none,
          { evt with sig := hexEncode (c.finalSig (msgOf c evt) (myPs :: kps)) },
          outs0, 1⟩) ∧
    (kps.length + 1 < ks.length →
      signingPhase c evt outs0 s numSigners ks kn kps secb =
        ⟨false, none, evt,
          outs0 ++ [Out.resumeCmd (printPublicCommandForNextPeer c evt numSigners ks kn
            (kps ++ [myPs]) true)], 1⟩) ∧
    (ks.length < kps.length + 1 →
      signingPhase c evt outs0 s numSigners ks kn kps secb =
        ⟨false, some .combineSigFail, evt, outs0, 1⟩) := by
  have htry : Session.trySign c s secb (msgOf c evt) =
      some (myPs, ⟨s.numSigners, s.myPubNonce, s.pubNonces, s.haveAllNonces,
        s.sigs ++ [myPs], s.haveFinal⟩) := by
    rw [Session.trySign, if_neg (by simp [hall]), hsig]
  refine ⟨?_, ?_, ?_⟩
  · intro hx
    have hnlt : ¬(kps.length + 1 < ks.length) := by omega
    simp only [signingPhase, htry]
    rw [if_neg hnlt]
    have hfin2 : (⟨s.numSigners, s.myPubNonce, s.pubNonces, s.haveAllNonces,
        s.sigs ++ [myPs], s.haveFinal⟩ : Session).haveFinal = false := hfin
    have hlen2 : (⟨s.numSigners, s.myPubNonce, s.pubNonces, s.haveAllNonces,
        s.sigs ++ [myPs], s.haveFinal⟩ : Session).sigs.length + kps.length =
        (⟨s.numSigners, s.myPubNonce, s.pubNonces, s.haveAllNonces,
          s.sigs ++ [myPs], s.haveFinal⟩ : Session).numSigners := by
      show (s.sigs ++ [myPs]).length + kps.length = s.numSigners
      rw [hsigs, hnum]
      simp only [List.nil_append, List.length_cons, List.length_nil]
      omega
    obtain ⟨s3, hc, hcs⟩ := combineAll_exact kps _ hfin2 hlen2
    simp only [hc]
    have hs3 : s3.sigs = myPs :: kps := by
      rw [hcs]
      show (s.sigs ++ [myPs]) ++ kps = myPs :: kps
      rw [hsigs]
      rfl
    rw [hs3]
  · intro hx
    simp only [signingPhase, htry]
    rw [if_pos hx]
  · intro hx
    have hnlt : ¬(kps.length + 1 < ks.length) := by omega
    simp only [signingPhase, htry]
    rw [if_neg hnlt]
    have hle2 : (⟨s.numSigners, s.myPubNonce, s.pubNonces, s.haveAllNonces,
        s.sigs ++ [myPs], s.haveFinal⟩ : Session).sigs.length ≤
        (⟨s.numSigners, s.myPubNonce, s.pubNonces, s.haveAllNonces,
          s.sigs ++ [myPs], s.haveFinal⟩ : Session).numSigners := by
      show (s.sigs ++ [myPs]).length ≤ s.numSigners
      rw [hsigs, hnum]
      simp only [List.nil_append, List.length_cons, List.length_nil]
      omega
    have hgt2 : (⟨s.numSigners, s.myPubNonce, s.pubNonces, s.haveAllNonces,
        s.sigs ++ [myPs], s.haveFinal⟩ : Session).numSigners <
        (⟨s.numSigners, s.myPubNonce, s.pubNonces, s.haveAllNonces,
          s.sigs ++ [myPs], s.haveFinal⟩ : Session).sigs.length + kps.length := by
      show s.numSigners < (s.sigs ++ [myPs]).length + kps.length
      rw [hsigs, hnum]
      simp only [List.nil_append, List.length_cons, List.length_nil]
      omega
    rw [combineAll_over kps _ hle2 hgt2]

/-- Witness for C1 at a concrete input (N = 2, one supplied partial
signature: completes). -/
theorem musig_signing_phase_completion_witness :
    ((⟨2, [4], [[4], [5]], true, [], false⟩ : Session).haveAllNonces = true ∧
      (⟨2, [4], [[4], [5]], true, [], false⟩ : Session).sigs = [] ∧
      (⟨2, [4], [[4], [5]], true, [], false⟩ : Session).haveFinal = false ∧
      (⟨2, [4], [[4], [5]], true, [], false⟩ : Session).numSigners =
        ([[3], [2, 1]] : List Bytes).length ∧
      1 ≤ ([[3], [2, 1]] : List Bytes).length ∧
      ((([[3], [2, 1]] : List Bytes).length : Int) = 2) ∧
      cT.partialSign [1] (msgOf cT eT) = some [9, 9]) ∧
    ((([[42]] : List Bytes).length + 1 = ([[3], [2, 1]] : List Bytes).length →
      signingPhase cT eT [Out.combinedKey "07"] ⟨2, [4], [[4], [5]], true, [], false⟩ 2
          [[3], [2, 1]] [[5]] [[42]] [1] =
        ⟨true, none,
          { eT with sig := hexEncode (cT.finalSig (msgOf cT eT) ([9, 9] :: [[42]])) },
          [Out.combinedKey "07"], 1⟩) ∧
    (([[42]] : List Bytes).length + 1 < ([[3], [2, 1]] : List Bytes).length →
      signingPhase cT eT [Out.combinedKey "07"] ⟨2, [4], [[4], [5]], true, [], false⟩ 2
          [[3], [2, 1]] [[5]] [[42]] [1] =
        ⟨false, none, eT,
          [Out.combinedKey "07"] ++ [Out.resumeCmd (printPublicCommandForNextPeer cT eT 2
            [[3], [2, 1]] [[5]] ([[42]] ++ [[9, 9]]) true)], 1⟩) ∧
    (([[3], [2, 1]] : List Bytes).length < ([[42]] : List Bytes).length + 1 →
      signingPhase cT eT [Out.combinedKey "07"] ⟨2, [4], [[4], [5]], true, [], false⟩ 2
          [[3], [2, 1]] [[5]] [[42]] [1] =
        ⟨false, some .combineSigFail, eT, [Out.combinedKey "07"], 1⟩)) :=
  ⟨⟨rfl, rfl, rfl, by decide, by decide, by decide, rfl⟩,
    musig_signing_phase_completion cT eT [Out.combinedKey "07"]
      ⟨2, [4], [[4], [5]], true, [], false⟩ 2 [[3], [2, 1]] [[5]] [[42]] [1] [9, 9]
      rfl rfl rfl (by decide) (by decide) (by decide) rfl⟩

/-- The signing phase never touches any event field but the signature,
and touches that only when it reports signed. -/
theorem signingPhase_frame (c : Crypto) (evt : Event) (outs0 : List Out) (s : Session)
    (numSigners : Int) (ks kn kps : List Bytes) (secb : Bytes) :
    sameExceptSig (signingPhase c evt outs0 s numSigners ks kn kps secb).evt evt ∧
    ((signingPhase c evt outs0 s numSigners ks kn kps secb).signed = false →
      (signingPhase c evt outs0 s numSigners ks kn kps secb).evt = evt) := by
  simp only [signingPhase]
  cases h : Session.trySign c s secb (msgOf c evt) with
  | none => simp [sameExceptSig]
  | some pr =>
    obtain ⟨ps, s2⟩ := pr
    simp only []
    by_cases hlt : kps.length + 1 < ks.length
    · rw [if_pos hlt]
      simp [sameExceptSig]
    · rw [if_neg hlt]
      cases hc : combineAll s2 kps with
      | error e => simp [sameExceptSig]
      | ok s3 => simp [sameExceptSig]

/-- C4: on every input and every path, the only event field the program
ever writes is the signature, and a changed signature implies the
invocation reported signed; whenever it reports not signed (including
every error path) the event is returned unchanged. -/
theorem musig_event_frame (c : Crypto) (sec : String) (evt : Event) (numSigners : Int)
    (keys nonces : List String) (secNonce : String) (partialSigs : List String) :
    sameExceptSig (performMusig c sec evt numSigners keys nonces secNonce partialSigs).evt evt ∧
    ((performMusig c sec evt numSigners keys nonces secNonce partialSigs).signed = false →
      (performMusig c sec evt numSigners keys nonces secNonce partialSigs).evt = evt) ∧
    ((performMusig c sec evt numSigners keys nonces secNonce partialSigs).evt.sig ≠ evt.sig →
      (performMusig c sec evt numSigners keys nonces secNonce partialSigs).signed = true) := by
  have main : sameExceptSig (performMusig c sec evt numSigners keys nonces secNonce
        partialSigs).evt evt ∧
      ((performMusig c sec evt numSigners keys nonces secNonce partialSigs).signed = false →
        (performMusig c sec evt numSigners keys nonces secNonce partialSigs).evt = evt) := by
    rw [performMusig]
    cases h1 : buildKnownSigners c sec keys with
    | error e => simp [sameExceptSig]
    | ok w =>
      obtain ⟨secb, pubk, ks⟩ := w
      simp only []
      cases h2 : parseNonces nonces with
      | error e => simp [sameExceptSig]
      | ok kn =>
        simp only []
        cases h3 : parsePartialSigs c partialSigs with
        | error e => simp [sameExceptSig]
        | ok kps =>
          simp only []
          by_cases h4 : (ks.length : Int) < numSigners
          · rw [if_pos h4]
            by_cases h5 : c.newCtxEarlyOk secb numSigners = false
            · rw [if_pos h5]
              simp [sameExceptSig]
            · rw [if_neg h5]
              cases h6 : c.earlyNonce secb numSigners with
              | none => simp [sameExceptSig]
              | some pr =>
                obtain ⟨sN, pN⟩ := pr
                simp [sameExceptSig]
          · rw [if_neg h4]
            by_cases h5 : c.newCtxKnownOk secb ks = false
            · rw [if_pos h5]
              simp [sameExceptSig]
            · rw [if_neg h5]
              cases h6 : c.combinedKey ks with
              | none => simp [sameExceptSig]
              | some comb =>
                simp only []
                cases h7 : mkSigningSession c secb ks numSigners keys.length secNonce with
                | error e => simp [sameExceptSig]
                | ok pr =>
                  obtain ⟨session0, appended⟩ := pr
                  simp only []
                  cases h8 : registerNonces c session0
                      (if appended then kn ++ [session0.myPubNonce] else kn) false with
                  | error e => simp [sameExceptSig]
                  | ok pr2 =>
                    obtain ⟨session1, noncesOk⟩ := pr2
                    simp only []
                    by_cases h9 : noncesOk = false
                    · rw [if_pos h9]
                      simp [sameExceptSig]
                    · rw [if_neg h9]
                      exact signingPhase_frame c evt _ session1 numSigners ks _ kps secb
  refine ⟨main.1, main.2, ?_⟩
  intro hne
  cases hb : (performMusig c sec evt numSigners keys nonces secNonce partialSigs).signed with
  | true => rfl
  | false => exact absurd (congrArg Event.sig (main.2 hb)) hne

/-- Witness for C4 at a concrete erroring input. -/
theorem musig_event_frame_witness :
    (performMusig cT "zz" eT 2 [] [] "" []).signed = false ∧
    (performMusig cT "zz" eT 2 [] [] "" []).evt = eT :=
  ⟨rfl, (musig_event_frame cT "zz" eT 2 [] [] "" []).2.1 rfl⟩

/-- Which outputs the signing phase can add: nothing on error, at most
one resume command on success. -/
theorem signingPhase_outs (c : Crypto) (evt : Event) (outs0 : List Out) (s : Session)
    (numSigners : Int) (ks kn kps : List Bytes) (secb : Bytes) :
    ((signingPhase c evt outs0 s numSigners ks kn kps secb).error.isSome →
      (signingPhase c evt outs0 s numSigners ks kn kps secb).outs = outs0) ∧
    ((signingPhase c evt outs0 s numSigners ks kn kps secb).outs = outs0 ∨
      ∃ str, (signingPhase c evt outs0 s numSigners ks kn kps secb).outs =
          outs0 ++ [Out.resumeCmd str] ∧
        (signingPhase c evt outs0 s numSigners ks kn kps secb).error = none) := by
  simp only [signingPhase]
  cases h : Session.trySign c s secb (msgOf c evt) with
  | none => simp
  | some pr =>
    obtain ⟨ps, s2⟩ := pr
    simp only []
    by_cases hlt : kps.length + 1 < ks.length
    · rw [if_pos hlt]
      simp
    · rw [if_neg hlt]
      cases hc : combineAll s2 kps with
      | error e => simp
      | ok s3 => simp

/-- C8: if an invocation ends in an error, its private-channel output
contains no secret nonce and no resume command; moreover any combined-key
line it printed came from a fully successful key aggregation. -/
theorem musig_error_no_private_output (c : Crypto) (sec : String) (evt : Event)
    (numSigners : Int) (keys nonces : List String) (secNonce : String)
    (partialSigs : List String) :
    ((performMusig c sec evt numSigners keys nonces secNonce partialSigs).error.isSome →
      ∀ str, Out.secretNonce str ∉
          (performMusig c sec evt numSigners keys nonces secNonce partialSigs).outs ∧
        Out.resumeCmd str ∉
          (performMusig c sec evt numSigners keys nonces secNonce partialSigs).outs) ∧
    (∀ h, Out.combinedKey h ∈
        (performMusig c sec evt numSigners keys nonces secNonce partialSigs).outs →
      ∃ secb pubk ks comb, buildKnownSigners c sec keys = .ok (secb, pubk, ks) ∧
        c.combinedKey ks = some comb ∧ h = hexEncode comb) := by
  rw [performMusig]
  cases h1 : buildKnownSigners c sec keys with
  | error e => simp
  | ok w =>
    obtain ⟨secb, pubk, ks⟩ := w
    simp only []
    cases h2 : parseNonces nonces with
    | error e => simp
    | ok kn =>
      simp only []
      cases h3 : parsePartialSigs c partialSigs with
      | error e => simp
      | ok kps =>
        simp only []
        by_cases h4 : (ks.length : Int) < numSigners
        · rw [if_pos h4]
          by_cases h5 : c.newCtxEarlyOk secb numSigners = false
          · rw [if_pos h5]
            simp
          · rw [if_neg h5]
            cases h6 : c.earlyNonce secb numSigners with
            | none => simp
            | some pr =>
              obtain ⟨sN, pN⟩ := pr
              simp
        · rw [if_neg h4]
          by_cases h5 : c.newCtxKnownOk secb ks = false
          · rw [if_pos h5]
            simp
          · rw [if_neg h5]
            cases h6 : c.combinedKey ks with
            | none => simp
            | some comb =>
              simp only []
              cases h7 : mkSigningSession c secb ks numSigners keys.length secNonce with
              | error e =>
                exact ⟨fun _ str => by constructor <;> simp,
                  fun h hmem => ⟨secb, pubk, ks, comb, rfl, h6, by simpa using hmem⟩⟩
              | ok pr =>
                obtain ⟨session0, appended⟩ := pr
                simp only []
                cases h8 : registerNonces c session0
                    (if appended then kn ++ [session0.myPubNonce] else kn) false with
                | error e =>
                  exact ⟨fun _ str => by constructor <;> simp,
                    fun h hmem => ⟨secb, pubk, ks, comb, rfl, h6, by simpa using hmem⟩⟩
                | ok pr2 =>
                  obtain ⟨session1, noncesOk⟩ := pr2
                  simp only []
                  by_cases h9 : noncesOk = false
                  · rw [if_pos h9]
                    exact ⟨fun _ str => by constructor <;> simp,
                      fun h hmem => ⟨secb, pubk, ks, comb, rfl, h6, by simpa using hmem⟩⟩
                  · rw [if_neg h9]
                    obtain ⟨herr, houts⟩ := signingPhase_outs c evt
                      [Out.combinedKey (hexEncode comb)] session1 numSigners ks
                      (if appended then kn ++ [session0.myPubNonce] else kn) kps secb
                    constructor
                    · intro hsome str
                      rw [herr hsome]
                      simp
                    · intro h hmem
                      rcases houts with heq | ⟨str, heq, _⟩
                      · rw [heq] at hmem
                        simp only [List.mem_singleton, Out.combinedKey.injEq] at hmem
                        exact ⟨secb, pubk, ks, comb, rfl, h6, hmem⟩
                      · rw [heq] at hmem
                        simp only [List.mem_append, List.mem_singleton,
                          Out.combinedKey.injEq] at hmem
                        rcases hmem with hmem | hmem
                        · exact ⟨secb, pubk, ks, comb, rfl, h6, hmem⟩
                        · cases hmem

/-- Witness for C8 at a concrete erroring input (missing secret nonce
after the combined key was printed). -/
theorem musig_error_no_private_output_witness :
    (performMusig cT "01" eT 2 ["03", "0201"] [] "" []).error.isSome = true ∧
    (∀ str, Out.secretNonce str ∉ (performMusig cT "01" eT 2 ["03", "0201"] [] "" []).outs ∧
      Out.resumeCmd str ∉ (performMusig cT "01" eT 2 ["03", "0201"] [] "" []).outs) :=
  ⟨rfl, (musig_error_no_private_output cT "01" eT 2 ["03", "0201"] [] "" []).1 rfl⟩

/-- Counterexample to C6: when the local public key is supplied twice,
the Participant Set contains it twice, not exactly once. -/
theorem musig_participant_set_cex :
    cT.pubOf [1] = [2, 1] ∧
    buildKnownSigners cT "01" ["0201", "0201"] = .ok ([1], [2, 1], [[2, 1], [2, 1]]) ∧
    ¬(([[2, 1], [2, 1]] : List Bytes).count [2, 1] = 1) :=
  ⟨rfl, rfl, by decide⟩

/-- C6 (amended): the Participant Set has at most one entry more than the
supplied key list (so it is bounded by N only when at most N-1 keys are
supplied), and the local public key appears exactly once provided the
supplied keys do not already contain it more than once. -/
theorem musig_participant_set_amended (c : Crypto) (sec : String) (keys : List String)
    (secb : Bytes) (ks0 : List Bytes) (inc : Bool)
    (h1 : hexDecode sec = some secb)
    (h2 : parseSigners c (c.pubOf secb) keys = .ok (ks0, inc))
    (h3 : ks0.count (c.pubOf secb) ≤ 1) :
    ∃ S, buildKnownSigners c sec keys = .ok (secb, c.pubOf secb, S) ∧
      S.count (c.pubOf secb) = 1 ∧ S.length ≤ keys.length + 1 := by
  have hlen := parseSigners_ok_length c (c.pubOf secb) keys ks0 inc h2
  have hinc := parseSigners_ok_inc c (c.pubOf secb) keys ks0 inc h2
  rw [buildKnownSigners, h1]
  simp only [h2]
  by_cases hi : inc = true
  · refine ⟨ks0, ?_, ?_, ?_⟩
    · simp [hi]
    · have hmem : c.pubOf secb ∈ ks0 := hinc.mp hi
      have hpos : 0 < ks0.count (c.pubOf secb) := List.count_pos_iff.mpr hmem
      omega
    · omega
  · refine ⟨ks0 ++ [c.pubOf secb], ?_, ?_, ?_⟩
    · simp [hi]
    · have hnmem : c.pubOf secb ∉ ks0 := fun hm => hi (hinc.mpr hm)
      rw [List.count_append, List.count_eq_zero.mpr hnmem]
      simp
    · simp only [List.length_append, List.length_cons, List.length_nil]
      omega

/-- Witness for the amended C6 at a concrete input. -/
theorem musig_participant_set_amended_witness :
    (hexDecode "01" = some [1] ∧
      parseSigners cT [2, 1] ["03"] = .ok ([[3]], false) ∧
      ([[3]] : List Bytes).count [2, 1] ≤ 1) ∧
    (∃ S, buildKnownSigners cT "01" ["03"] = .ok ([1], [2, 1], S) ∧
      S.count [2, 1] = 1 ∧ S.length ≤ (["03"] : List String).length + 1) :=
  ⟨⟨rfl, rfl, by decide⟩,
    musig_participant_set_amended cT "01" ["03"] [1] [[3]] false rfl rfl (by decide)⟩

/-- Counterexample to C7: a secret nonce whose base64 decoding yields a
single byte (not 97) is not rejected by any length check; the invocation
silently zero-pads it and completes the whole ceremony. -/
theorem musig_secnonce_padding_cex :
    base64Decode "AA==" = some [0] ∧
    performMusig cT "01" eT 2 ["03", "0201"] [String.mk (List.replicate 132 '0')]
        "AA==" ["2a"] =
      ⟨true, none, { eT with sig := hexEncode (List.replicate 64 1) },
        [Out.combinedKey "07"], 1⟩ :=
  ⟨rfl, by decide⟩

/-- C7 (amended): a malformed (non-base64) secret nonce fails with a
decode error, but a secret nonce whose base64 decoding does not yield
exactly 97 bytes is not rejected: it is silently zero-padded or truncated
to 97 bytes before being handed to the session. -/
theorem musig_secnonce_amended (c : Crypto) (secb : Bytes) (ks : List Bytes)
    (numSigners : Int) (numKeys : Nat) (secNonce : String)
    (hk : ¬((numKeys : Int) = numSigners - 1)) (hne : ¬(secNonce = "")) :
    (base64Decode secNonce = none →
      mkSigningSession c secb ks numSigners numKeys secNonce = .error .invalidSecNonce) ∧
    (∀ b, base64Decode secNonce = some b →
      c.preSessionOk secb ks ((b ++ List.replicate 97 0).take 97) = true →
      mkSigningSession c secb ks numSigners numKeys secNonce =
        .ok (Session.init ks.length
          (c.secNonceToPubNonce ((b ++ List.replicate 97 0).take 97)), false)) := by
  constructor
  · intro hb
    rw [mkSigningSession, if_neg hk, if_neg hne, hb]
  · intro b hb hok
    rw [mkSigningSession, if_neg hk, if_neg hne]
    simp only [hb, hok, if_true]

/-- Witness for the amended C7 at a concrete input (a 1-byte secret
nonce). -/
theorem musig_secnonce_amended_witness :
    (¬(((2 : Nat) : Int) = 2 - 1) ∧ ¬(("AA==" : String) = "")) ∧
    ((base64Decode "AA==" = none →
      mkSigningSession cT [1] [[3], [2, 1]] 2 2 "AA==" = .error .invalidSecNonce) ∧
    (∀ b, base64Decode "AA==" = some b →
      cT.preSessionOk [1] [[3], [2, 1]] ((b ++ List.replicate 97 0).take 97) = true →
      mkSigningSession cT [1] [[3], [2, 1]] 2 2 "AA==" =
        .ok (Session.init ([[3], [2, 1]] : List Bytes).length
          (cT.secNonceToPubNonce ((b ++ List.replicate 97 0).take 97)), false))) :=
  ⟨⟨by decide, by decide⟩,
    musig_secnonce_amended cT [1] [[3], [2, 1]] 2 2 "AA==" (by decide) (by decide)⟩

/-- The `--musig2-pubkey` flag string is exactly the join of the signer
tokens behind that flag. -/
theorem signersToCliArgs_tokens (ks : List Bytes) :
    signersToCliArgs ks =
      String.join ((signerTokens ks).map (fun t => " --musig2-pubkey " ++ t)) := by
  simp [signersToCliArgs, signerTokens, List.map_map, Function.comp_def]

/-- The `--musig2-nonce` flag string is exactly the join of the nonce
tokens behind that flag. -/
theorem noncesToCliArgs_tokens (ns : List Bytes) :
    noncesToCliArgs ns =
      String.join ((nonceTokens ns).map (fun t => " --musig2-nonce " ++ t)) := by
  simp [noncesToCliArgs, nonceTokens, List.map_map, Function.comp_def]

/-- The `--musig2-partial` flag string is exactly the join of the
partial-signature tokens behind that flag. -/
theorem partialSigsToCliArgs_tokens (c : Crypto) (ps : List Bytes) :
    partialSigsToCliArgs c ps =
      String.join ((partialSigTokens c ps).map (fun t => " --musig2-partial " ++ t)) := by
  simp [partialSigsToCliArgs, partialSigTokens, List.map_map, Function.comp_def]

/-- Re-parsing the emitted signer tokens reproduces the signer list. -/
theorem parseSigners_tokens (c : Crypto) (pubk : Bytes) :
    ∀ ks : List Bytes, (∀ k ∈ ks, (∀ b ∈ k, b < 256) ∧ c.parsePubKey k = some k) →
    ∃ inc, parseSigners c pubk (signerTokens ks) = .ok (ks, inc) := by
  intro ks
  induction ks with
  | nil => intro _; exact ⟨false, rfl⟩
  | cons k rest ih =>
    intro h
    obtain ⟨hbytes, hparse⟩ := h k (List.mem_cons_self k rest)
    obtain ⟨inc, hrec⟩ := ih (fun x hx => h x (List.mem_cons_of_mem k hx))
    refine ⟨if k = pubk then true else inc, ?_⟩
    show parseSigners c pubk (hexEncode k :: signerTokens rest) = _
    rw [parseSigners]
    simp only [hexDecode_hexEncode k hbytes, hparse, hrec]

/-- Re-parsing the emitted nonce tokens reproduces the nonce list. -/
theorem parseNonces_tokens :
    ∀ ns : List Bytes, (∀ n ∈ ns, (∀ b ∈ n, b < 256) ∧ n.length = 66) →
    parseNonces (nonceTokens ns) = .ok ns := by
  intro ns
  induction ns with
  | nil => intro _; rfl
  | cons n rest ih =>
    intro h
    obtain ⟨hbytes, hlen⟩ := h n (List.mem_cons_self n rest)
    have hrec := ih (fun x hx => h x (List.mem_cons_of_mem n hx))
    show parseNonces (hexEncode n :: nonceTokens rest) = _
    rw [parseNonces]
    simp only [hexDecode_hexEncode n hbytes, hlen, hrec]
    simp

/-- Re-parsing the emitted partial-signature tokens reproduces the
partial-signature list. -/
theorem parsePartialSigs_tokens (c : Crypto) :
    ∀ ps : List Bytes,
    (∀ p ∈ ps, (∀ b ∈ c.psEncode p, b < 256) ∧ c.psDecode (c.psEncode p) = some p) →
    parsePartialSigs c (partialSigTokens c ps) = .ok ps := by
  intro ps
  induction ps with
  | nil => intro _; rfl
  | cons p rest ih =>
    intro h
    obtain ⟨hbytes, hdec⟩ := h p (List.mem_cons_self p rest)
    have hrec := ih (fun x hx => h x (List.mem_cons_of_mem p hx))
    show parsePartialSigs c (hexEncode (c.psEncode p) :: partialSigTokens c rest) = _
    rw [parsePartialSigs]
    simp only [hexDecode_hexEncode (c.psEncode p) hbytes, hdec, hrec]

/-- C9: the resume-command encoders emit only canonical lowercase hex
tokens, and re-parsing those tokens with the input parser reproduces the
key, nonce and partial-signature byte sequences exactly. -/
theorem musig_resume_roundtrip (c : Crypto) (pubk : Bytes) (ks ns ps : List Bytes)
    (hks : ∀ k ∈ ks, (∀ b ∈ k, b < 256) ∧ c.parsePubKey k = some k)
    (hns : ∀ n ∈ ns, (∀ b ∈ n, b < 256) ∧ n.length = 66)
    (hps : ∀ p ∈ ps, (∀ b ∈ c.psEncode p, b < 256) ∧ c.psDecode (c.psEncode p) = some p) :
    (∀ t ∈ signerTokens ks ++ nonceTokens ns ++ partialSigTokens c ps,
      ∀ ch ∈ t.data, isLowerHexChar ch) ∧
    (∃ inc, parseSigners c pubk (signerTokens ks) = .ok (ks, inc)) ∧
    parseNonces (nonceTokens ns) = .ok ns ∧
    parsePartialSigs c (partialSigTokens c ps) = .ok ps := by
  refine ⟨?_, parseSigners_tokens c pubk ks hks, parseNonces_tokens ns hns,
    parsePartialSigs_tokens c ps hps⟩
  intro t ht
  have : ∃ bs : Bytes, t = hexEncode bs := by
    simp only [List.mem_append] at ht
    rcases ht with (ht | ht) | ht
    · obtain ⟨k, _, rfl⟩ := List.mem_map.mp ht
      exact ⟨k, rfl⟩
    · obtain ⟨n, _, rfl⟩ := List.mem_map.mp ht
      exact ⟨n, rfl⟩
    · obtain ⟨p, _, rfl⟩ := List.mem_map.mp ht
      exact ⟨c.psEncode p, rfl⟩
  obtain ⟨bs, rfl⟩ := this
  exact hexEncode_lower bs

/-- Witness for C9 at a concrete input. -/
theorem musig_resume_roundtrip_witness :
    ((∀ k ∈ ([[171]] : List Bytes), (∀ b ∈ k, b < 256) ∧ cT.parsePubKey k = some k) ∧
      (∀ n ∈ ([List.replicate 66 0] : List Bytes),
        (∀ b ∈ n, b < 256) ∧ n.length = 66) ∧
      (∀ p ∈ ([[42]] : List Bytes),
        (∀ b ∈ cT.psEncode p, b < 256) ∧ cT.psDecode (cT.psEncode p) = some p)) ∧
    ((∀ t ∈ signerTokens [[171]] ++ nonceTokens [List.replicate 66 0] ++
        partialSigTokens cT [[42]], ∀ ch ∈ t.data, isLowerHexChar ch) ∧
    (∃ inc, parseSigners cT [2, 1] (signerTokens [[171]]) = .ok ([[171]], inc)) ∧
    parseNonces (nonceTokens [List.replicate 66 0]) = .ok [List.replicate 66 0] ∧
    parsePartialSigs cT (partialSigTokens cT [[42]]) = .ok [[42]]) :=
  ⟨⟨by decide, by decide, by decide⟩,
    musig_resume_roundtrip cT [2, 1] [[171]] [List.replicate 66 0] [[42]]
      (by decide) (by decide) (by decide)⟩

/-- C10: with no configured secret key (empty `NOSTR_SECRET_KEY`) and an
absent or valid mention, `publish_note` returns no tool error, signs the
event under the hardcoded fallback secret key
0000000000000000000000000000000000000000000000000000000000000001, and
publishes it to a nonempty relay list. -/
theorem mcp_publish_fallback_key (env : McpEnv) (content mention relay : String)
    (hkey : env.nostrSecretKey = "")
    (hm : mention = "" ∨ env.isValidPubKey mention = true) :
    (publishNote env content mention relay).error = none ∧
    (publishNote env content mention relay).skUsed = some fallbackSecretKey ∧
    (publishNote env content mention relay).event.isSome = true ∧
    (publishNote env content mention relay).relays ≠ [] := by
  have hcond : ¬(mention ≠ "" ∧ env.isValidPubKey mention = false) := by
    rcases hm with h | h
    · simp [h]
    · simp [h]
  rw [publishNote, if_neg hcond]
  refine ⟨?_, ?_, ?_, ?_⟩
  · simp [hkey]
  · simp [hkey]
  · simp [hkey]
  · simp only [hkey]
    split_ifs <;> simp_all

/-- Witness for C10 at a concrete input. -/
theorem mcp_publish_fallback_key_witness :
    ((⟨"", fun _ => false, fun _ => [], fun _ => [], fun sk e => { e with sig := sk },
        5⟩ : McpEnv).nostrSecretKey = "" ∧
      (("" : String) = "" ∨
        (⟨"", fun _ => false, fun _ => [], fun _ => [], fun sk e => { e with sig := sk },
          5⟩ : McpEnv).isValidPubKey "" = true)) ∧
    ((publishNote ⟨"", fun _ => false, fun _ => [], fun _ => [],
        fun sk e => { e with sig := sk }, 5⟩ "hi" "" "").error = none ∧
      (publishNote ⟨"", fun _ => false, fun _ => [], fun _ => [],
        fun sk e => { e with sig := sk }, 5⟩ "hi" "" "").skUsed = some fallbackSecretKey ∧
      (publishNote ⟨"", fun _ => false, fun _ => [], fun _ => [],
        fun sk e => { e with sig := sk }, 5⟩ "hi" "" "").event.isSome = true ∧
      (publishNote ⟨"", fun _ => false, fun _ => [], fun _ => [],
        fun sk e => { e with sig := sk }, 5⟩ "hi" "" "").relays ≠ []) :=
  ⟨⟨rfl, Or.inl rfl⟩,
    mcp_publish_fallback_key
      ⟨"", fun _ => false, fun _ => [], fun _ => [], fun sk e => { e with sig := sk }, 5⟩
      "hi" "" "" rfl (Or.inl rfl)⟩

end Nak
